import Mathlib

/-!
Shallow embedding of the `rust-memory` crate (`src/lib.rs`): a time-based
expiring key-value store `Brain<T>` together with a key-remapping view
`MemorySubstitute`.

Modelling choices:
* `time::OffsetDateTime` values are embedded as integers (nanoseconds since
  some epoch); `time::Duration` is a signed integer span.  The only
  operations the code uses on them are addition (`value.1.add(self.retention)`)
  and comparison (`<`), which are mirrored exactly on `Int`.
* The `HashMap<String, Engram<T>>` behind the `RwLock` is embedded as an
  association list with at most one live binding per key; `insert`, `get`
  and `remove` mirror the hash-map operations on that representation.
* Every method that calls `OffsetDateTime::now_utc()` takes the current
  time as an explicit argument (`memoize` stamps its entry with it, and
  `forget` computes its `now` once, at the start of the sweep, exactly as
  the source does).
* The `RwLock`/`Arc` concurrency wrapper has no sequential content; the
  embedding is the store under its internal serialization.
-/

namespace RustMemory

variable {T : Type}

/-- Embedding of `time::OffsetDateTime`: an instant on an integer timeline. -/
abbrev Timestamp := Int

/-- Embedding of `time::Duration`: a signed span of time. -/
abbrev Duration := Int

/-- Source: `struct Engram<T>(T, OffsetDateTime)` — a stored value paired
with its insertion time. -/
structure Engram (T : Type) where
  value : T
  inserted_at : Timestamp
  deriving Repr, DecidableEq

/-- The backing `HashMap<String, Engram<T>>`, embedded as an association
list.  The hash-map operations keep at most one binding per key; arbitrary
lists are allowed in statements, with key-uniqueness stated where a proof
needs it. -/
abbrev MemMap (T : Type) := List (String × Engram T)

/-- Embedding of `HashMap::get` on the backing map. -/
def hm_get (m : MemMap T) (k : String) : Option (Engram T) :=
  (m.find? fun p => decide (p.1 = k)).map (fun p => p.2)

/-- Embedding of `HashMap::insert`: the new binding replaces any binding
of the same key. -/
def hm_insert (m : MemMap T) (k : String) (e : Engram T) : MemMap T :=
  (k, e) :: m.filter fun p => !decide (p.1 = k)

/-- Embedding of `HashMap::remove`. -/
def hm_remove (m : MemMap T) (k : String) : MemMap T :=
  m.filter fun p => !decide (p.1 = k)

/-- The keys of a backing map, in order. -/
def hm_keys (m : MemMap T) : List String :=
  m.map fun p => p.1

/-- Source: `pub struct Brain<T> { memory: Arc<RwLock<HashMap<String, Engram<T>>>>,
retention: Duration }`. -/
structure Brain (T : Type) where
  memory : MemMap T
  retention : Duration
  deriving Repr

/-- Source: `Brain::new(retention)` — empty map, the given retention. -/
def Brain.new (retention : Duration) : Brain T :=
  { memory := [], retention := retention }

/-- Source: `fn memoize(&self, key, value)` — inserts
`Engram(value, OffsetDateTime::now_utc())` under `key`. -/
def Brain.memoize (b : Brain T) (key : String) (value : T) (now : Timestamp) :
    Brain T :=
  { b with memory := hm_insert b.memory key ⟨value, now⟩ }

/-- Source: `fn forget(&self)` — computes `now` once, snapshots all entries
into a vector, and removes every snapshotted entry whose
`inserted_at + retention < now`.  The snapshot is the map itself at the
start of the sweep, and the removals fold over it. -/
def Brain.forget (b : Brain T) (now : Timestamp) : Brain T :=
  { b with
    memory :=
      b.memory.foldl
        (fun m p =>
          if p.2.inserted_at + b.retention < now then hm_remove m p.1 else m)
        b.memory }

/-- Source: `fn retrieve(&self, key)` —
`self.memory.read().get(key).map(|engram| &engram.0).cloned()`. -/
def Brain.retrieve (b : Brain T) (key : String) : Option T :=
  (hm_get b.memory key).map (fun e => e.value)

/-- Source: `fn retrieve_or_default(&self, key)` —
`self.retrieve(key).unwrap_or(T::default())`.  Rust's `Default` bound is
embedded as `Inhabited` with its `default` value. -/
def Brain.retrieve_or_default [Inhabited T] (b : Brain T) (key : String) : T :=
  (b.retrieve key).getD default

/-- Source: `pub struct MemorySubstitute<'map, 'memory, T>` — a fixed
alias table over a borrowed `Brain`.  The borrow is embedded by carrying
the brain inside and returning the updated brain from mutating calls. -/
structure MemorySubstitute (T : Type) where
  map : List (String × String)
  memory : Brain T
  deriving Repr

/-- Embedding of `self.map.get(key)` on the alias table. -/
def sub_lookup (m : List (String × String)) (k : String) : Option String :=
  (m.find? fun p => decide (p.1 = k)).map (fun p => p.2)

/-- Source: `MemorySubstitute::memoize` —
`self.memory.memoize(self.map.get(key).unwrap_or(&key.to_string()), value)`. -/
def MemorySubstitute.memoize (s : MemorySubstitute T) (key : String) (value : T)
    (now : Timestamp) : MemorySubstitute T :=
  { s with memory := s.memory.memoize ((sub_lookup s.map key).getD key) value now }

/-- Source: `MemorySubstitute::retrieve` —
`self.memory.retrieve(self.map.get(key).unwrap_or(&key.to_string()))`. -/
def MemorySubstitute.retrieve (s : MemorySubstitute T) (key : String) : Option T :=
  s.memory.retrieve ((sub_lookup s.map key).getD key)

/-- Source: `MemorySubstitute::forget` — `self.memory.forget()`. -/
def MemorySubstitute.forget (s : MemorySubstitute T) (now : Timestamp) :
    MemorySubstitute T :=
  { s with memory := s.memory.forget now }

/-- Source: `MemorySubstitute::retrieve_or_default` —
`self.memory.retrieve_or_default(self.map.get(key).unwrap_or(&key.to_string()))`. -/
def MemorySubstitute.retrieve_or_default [Inhabited T] (s : MemorySubstitute T)
    (key : String) : T :=
  s.memory.retrieve_or_default ((sub_lookup s.map key).getD key)

/-- The key resolution rule, written from the words of the spec: given a
requested key `k`, resolve to `real = mapping.get(k)`; if present use
`real`, otherwise use `k` itself unchanged.  Used to compare the source
operations against the spec's rule. -/
def resolveSpec (m : List (String × String)) (k : String) : String :=
  match sub_lookup m k with
  | some real => real
  | none => k

end RustMemory

namespace RustMemory

variable {T : Type}

/-! ### Helper lemmas about the backing map and the sweep -/

/-- A key absent from the key list is absent from the map. -/
lemma hm_get_eq_none_of_not_mem (m : MemMap T) (k : String)
    (h : k ∉ hm_keys m) : hm_get m k = none := by
  have hfind : m.find? (fun p => decide (p.1 = k)) = none := by
    rw [List.find?_eq_none]
    intro p hp
    simp only [decide_eq_true_eq]
    intro hk
    exact h (hk ▸ List.mem_map_of_mem (fun q => q.1) hp)
  simp [hm_get, hfind]

/-- In a map with pairwise-distinct keys, two bindings with the same key
are the same binding. -/
lemma nodup_keys_eq : ∀ (m : MemMap T), (hm_keys m).Nodup →
    ∀ {p q : String × Engram T}, p ∈ m → q ∈ m → p.1 = q.1 → p = q := by
  intro m
  induction m with
  | nil => intro _ p q hp; cases hp
  | cons a t ih =>
    intro h p q hp hq hk
    simp only [hm_keys, List.map_cons, List.nodup_cons] at h
    rcases List.mem_cons.mp hp with hp | hp <;>
      rcases List.mem_cons.mp hq with hq | hq
    · exact hp.trans hq.symm
    · exfalso
      apply h.1
      have hq1 : q.1 ∈ List.map (fun r => r.1) t :=
        List.mem_map_of_mem (fun r => r.1) hq
      rwa [← hk, hp] at hq1
    · exfalso
      apply h.1
      have hp1 : p.1 ∈ List.map (fun r => r.1) t :=
        List.mem_map_of_mem (fun r => r.1) hp
      rwa [hk, hq] at hp1
    · exact ih h.2 hp hq hk

/-- The two-pass sweep (snapshot `l`, then remove the expired snapshotted
keys from `m`) is the filter keeping the bindings whose key has no expired
binding in the snapshot. -/
lemma foldl_remove_eq_filter (R : Duration) (now : Timestamp) :
    ∀ (l m : MemMap T),
      l.foldl
        (fun m p =>
          if p.2.inserted_at + R < now then hm_remove m p.1 else m) m
        = m.filter fun p =>
            !(l.any fun q =>
              decide (p.1 = q.1) && decide (q.2.inserted_at + R < now)) := by
  intro l
  induction l with
  | nil => intro m; simp
  | cons q l ih =>
    intro m
    simp only [List.foldl_cons, List.any_cons]
    by_cases h : q.2.inserted_at + R < now
    · rw [if_pos h, ih, hm_remove, List.filter_filter]
      refine List.filter_congr fun p _ => ?_
      simp [h, Bool.and_comm]
    · rw [if_neg h, ih]
      refine List.filter_congr fun p _ => ?_
      simp [h]

/-- Filtering a key-unique map by a predicate on the entry commutes with
lookup. -/
lemma hm_get_filter_entry (g : Engram T → Bool) :
    ∀ (m : MemMap T), (hm_keys m).Nodup → ∀ k,
      hm_get (m.filter fun p => g p.2) k
        = (hm_get m k).bind fun e => if g e then some e else none := by
  intro m
  induction m with
  | nil => intro _ k; simp [hm_get]
  | cons a t ih =>
    intro h k
    simp only [hm_keys, List.map_cons, List.nodup_cons] at h
    by_cases hk : a.1 = k
    · by_cases hg : g a.2
      · simp [hm_get, List.filter_cons, hg, List.find?_cons, hk]
      · have hnone : hm_get (t.filter fun p => g p.2) k = none := by
          refine hm_get_eq_none_of_not_mem _ _ fun hmem => ?_
          simp only [hm_keys, List.mem_map] at hmem
          obtain ⟨p, hp, hpk⟩ := hmem
          apply h.1
          have hp1 : p.1 ∈ List.map (fun r => r.1) t :=
            List.mem_map_of_mem (fun r => r.1) (List.mem_of_mem_filter hp)
          rwa [hpk, ← hk] at hp1
        have hL : hm_get ((a :: t).filter fun p => g p.2) k = none := by
          have hdrop : ((a :: t).filter fun p => g p.2)
              = t.filter fun p => g p.2 := by
            simp [List.filter_cons, hg]
          rw [hdrop]
          exact hnone
        rw [hL]
        simp [hm_get, List.find?_cons, hk, hg]
    · have htail := ih h.2 k
      by_cases hg : g a.2 <;>
        simpa [hm_get, List.filter_cons, hg, List.find?_cons, hk] using htail

/-- Characterization of the sweep on a key-unique store: after
`forget now`, a key is bound exactly when it was bound to a non-expired
entry, and that entry is unchanged. -/
lemma forget_hm_get (b : Brain T) (now : Timestamp)
    (h : (hm_keys b.memory).Nodup) (k : String) :
    hm_get (b.forget now).memory k
      = (hm_get b.memory k).bind
          (fun e => if e.inserted_at + b.retention < now then none
                    else some e) := by
  show hm_get
      (b.memory.foldl
        (fun m p =>
          if p.2.inserted_at + b.retention < now then hm_remove m p.1 else m)
        b.memory) k = _
  rw [foldl_remove_eq_filter]
  have hcongr :
      (b.memory.filter fun p =>
          !(b.memory.any fun q =>
            decide (p.1 = q.1) && decide (q.2.inserted_at + b.retention < now)))
        = b.memory.filter fun p =>
            !decide (p.2.inserted_at + b.retention < now) := by
    refine List.filter_congr fun p hp => ?_
    by_cases hexp : p.2.inserted_at + b.retention < now
    · have hany : (b.memory.any fun q =>
          decide (p.1 = q.1) && decide (q.2.inserted_at + b.retention < now))
            = true :=
        (List.any_eq_true).mpr ⟨p, hp, by simp [hexp]⟩
      simp [hany, hexp]
    · have hany : ¬ (b.memory.any fun q =>
          decide (p.1 = q.1) && decide (q.2.inserted_at + b.retention < now))
            = true := by
        intro hany
        obtain ⟨q, hq, hqp⟩ := (List.any_eq_true).mp hany
        simp only [Bool.and_eq_true, decide_eq_true_eq] at hqp
        have hpq : p = q := nodup_keys_eq b.memory h hp hq hqp.1
        rw [hpq] at hexp
        exact hexp hqp.2
      simp [Bool.eq_false_iff.mpr hany, hexp]
  rw [hcongr,
    hm_get_filter_entry (fun e => !decide (e.inserted_at + b.retention < now))
      b.memory h k]
  cases hm_get b.memory k with
  | none => rfl
  | some e =>
    by_cases hexp : e.inserted_at + b.retention < now <;> simp [hexp]

/-- Keys after an insert stay pairwise distinct. -/
lemma hm_keys_insert_nodup (m : MemMap T) (h : (hm_keys m).Nodup)
    (k : String) (e : Engram T) : (hm_keys (hm_insert m k e)).Nodup := by
  simp only [hm_insert, hm_keys, List.map_cons, List.nodup_cons]
  constructor
  · intro hmem
    simp only [List.mem_map] at hmem
    obtain ⟨p, hp, hpk⟩ := hmem
    have := List.of_mem_filter hp
    simp only [Bool.not_eq_eq_eq_not, Bool.not_true, decide_eq_false_iff_not] at this
    exact this hpk
  · exact List.Nodup.sublist
      (List.Sublist.map (fun p => p.1) (List.filter_sublist m)) h

/-- A freshly inserted binding is found under its key. -/
lemma hm_get_insert_self (m : MemMap T) (k : String) (e : Engram T) :
    hm_get (hm_insert m k e) k = some e := by
  simp [hm_get, hm_insert, List.find?_cons]

/-- Retrieve of the key just memoized yields the value just stored. -/
lemma retrieve_memoize_self (b : Brain T) (k : String) (v : T)
    (t : Timestamp) : (b.memoize k v t).retrieve k = some v := by
  simp [Brain.memoize, Brain.retrieve, hm_get_insert_self]

/-- Transforming every timestamp (and the retention) leaves retrieve
unchanged: lookup never inspects times. -/
lemma hm_get_map_timestamps (f : Timestamp → Timestamp) :
    ∀ (m : MemMap T) (k : String),
      hm_get (m.map fun p => (p.1, Engram.mk p.2.value (f p.2.inserted_at))) k
        = (hm_get m k).map fun e => Engram.mk e.value (f e.inserted_at) := by
  intro m
  induction m with
  | nil => intro k; rfl
  | cons a t ih =>
    intro k
    by_cases hk : a.1 = k
    · simp [hm_get, List.find?_cons, hk]
    · have htail := ih k
      simpa [hm_get, List.find?_cons, hk] using htail

/-- The concrete store used in witnesses: retention 3, key a inserted at
time 0 holding 1, key b inserted at time 2 holding 2. -/
def exBrain : Brain Nat :=
  ((Brain.new 3).memoize "a" 1 0).memoize "b" 2 2

/-! ### The claims -/

/-- C1: a sweep uses the single time `now` it is given for every entry,
and on a key-unique store it removes exactly the entries with
`inserted_at + retention < now` (strict inequality); an entry whose
deadline equals `now` is retained unchanged. -/
theorem forget_removes_exactly_strictly_expired (b : Brain T)
    (now : Timestamp) (h : (hm_keys b.memory).Nodup) :
    (∀ k, hm_get (b.forget now).memory k
        = (hm_get b.memory k).bind
            (fun e => if e.inserted_at + b.retention < now then none
                      else some e))
    ∧ ∀ k e, hm_get b.memory k = some e →
        e.inserted_at + b.retention = now →
        hm_get (b.forget now).memory k = some e := by
  refine ⟨fun k => forget_hm_get b now h k, fun k e he hb => ?_⟩
  rw [forget_hm_get b now h k, he]
  show (if e.inserted_at + b.retention < now then none else some e) = some e
  rw [hb]
  simp

/-- Witness for C1 on the concrete store, swept at time 5: key a
(deadline 3 < 5) is removed, key b (deadline exactly 5) is retained. -/
theorem forget_removes_exactly_strictly_expired_witness :
    hm_get (exBrain.forget 5).memory "a" = none ∧
    hm_get (exBrain.forget 5).memory "b" = some ⟨2, 2⟩ := by
  have h := forget_removes_exactly_strictly_expired exBrain 5 (by decide)
  refine ⟨?_, h.2 "b" ⟨2, 2⟩ (by decide) (by decide)⟩
  rw [h.1 "a"]
  decide

/-- C2: memoize followed immediately by retrieve of the same key yields
`some value`, on every store state. -/
theorem memoize_retrieve_roundtrip (b : Brain T) (k : String) (v : T)
    (t : Timestamp) : (b.memoize k v t).retrieve k = some v :=
  retrieve_memoize_self b k v t

/-- C3: every remapper operation equals the corresponding store operation
applied to the resolved key, where resolution follows the spec's rule
(the mapping's entry for the key when present, the key itself otherwise)
and is performed exactly once per call; forget passes straight through to
the store and the alias table is never modified.  The last two conjuncts
show on concrete tables that only one substitution level happens, even on
a cyclic table and on a chained alias. -/
theorem substitute_refines_resolve [Inhabited T] (s : MemorySubstitute T)
    (k : String) (v : T) (t now : Timestamp) :
    (s.memoize k v t).memory = s.memory.memoize (resolveSpec s.map k) v t
    ∧ (s.memoize k v t).map = s.map
    ∧ s.retrieve k = s.memory.retrieve (resolveSpec s.map k)
    ∧ s.retrieve_or_default k
        = s.memory.retrieve_or_default (resolveSpec s.map k)
    ∧ (s.forget now).memory = s.memory.forget now
    ∧ (s.forget now).map = s.map
    ∧ resolveSpec [("a", "b"), ("b", "a")] "a" = "b"
    ∧ resolveSpec [("a", "b"), ("b", "c")] "a" = "b" := by
  have hres : (sub_lookup s.map k).getD k = resolveSpec s.map k := by
    unfold resolveSpec
    cases sub_lookup s.map k <;> rfl
  refine ⟨?_, rfl, ?_, ?_, rfl, rfl, by decide, by decide⟩ <;>
    simp [MemorySubstitute.memoize, MemorySubstitute.retrieve,
      MemorySubstitute.retrieve_or_default, hres]

/-- C4 fails as stated: with retention 3 and an entry inserted at time 0,
a sweep at time 3 — which is ≥ 0 + 3 — retains the entry (the code
removes only on strict inequality), while the claim demands absence. -/
theorem forget_at_exact_deadline_keeps_entry :
    (3 : Int) ≥ 0 + 3 ∧
    (((Brain.new 3).memoize "a" (1 : Nat) 0).forget 3).retrieve "a"
      = some 1 := by
  constructor
  · decide
  · decide

/-- C4 amended: with retention R, an entry memoized at t0 is retrievable
with no read-time filtering; after a forget at any time strictly greater
than t0 + R the key is absent; a forget at any time at or before t0 + R
(the exact deadline included) leaves the entry retrievable. -/
theorem expiry_boundary_amended (b : Brain T)
    (h : (hm_keys b.memory).Nodup) (k : String) (v : T)
    (t0 now : Timestamp) :
    ((b.memoize k v t0).retrieve k = some v)
    ∧ (t0 + b.retention < now →
        ((b.memoize k v t0).forget now).retrieve k = none)
    ∧ (now ≤ t0 + b.retention →
        ((b.memoize k v t0).forget now).retrieve k = some v) := by
  have hnd : (hm_keys (b.memoize k v t0).memory).Nodup :=
    hm_keys_insert_nodup b.memory h k ⟨v, t0⟩
  have hget : hm_get (b.memoize k v t0).memory k = some ⟨v, t0⟩ :=
    hm_get_insert_self b.memory k ⟨v, t0⟩
  refine ⟨retrieve_memoize_self b k v t0, fun hlt => ?_, fun hle => ?_⟩
  · rw [Brain.retrieve, forget_hm_get _ now hnd k, hget]
    show ((if (t0 + b.retention < now) then none else some (⟨v, t0⟩ : Engram T)).map
      fun e => e.value) = none
    rw [if_pos hlt]
    rfl
  · rw [Brain.retrieve, forget_hm_get _ now hnd k, hget]
    show ((if (t0 + b.retention < now) then none else some (⟨v, t0⟩ : Engram T)).map
      fun e => e.value) = some v
    rw [if_neg (not_lt.mpr hle)]
    rfl

/-- Witness for the amended C4 with retention 3 and insertion time 0: a
sweep at time 4 removes the entry, a sweep at the exact deadline 3 keeps
it, and retrieve sees the entry while no sweep ran. -/
theorem expiry_boundary_amended_witness :
    ((Brain.new 3 : Brain Nat).memoize "a" 1 0).retrieve "a" = some 1
    ∧ (((Brain.new 3 : Brain Nat).memoize "a" 1 0).forget 4).retrieve "a"
        = none
    ∧ (((Brain.new 3 : Brain Nat).memoize "a" 1 0).forget 3).retrieve "a"
        = some 1 := by
  have h4 := expiry_boundary_amended (Brain.new 3 : Brain Nat)
    (by decide) "a" 1 0 4
  have h3 := expiry_boundary_amended (Brain.new 3 : Brain Nat)
    (by decide) "a" 1 0 3
  exact ⟨h4.1, h4.2.1 (by decide), h3.2.2 (by decide)⟩

/-- C5: overwriting a key stores the second value stamped with the second
write's time, so retrieve yields the second value, and the entry survives
a sweep that falls after the first write's deadline but at or before the
second write's deadline. -/
theorem memoize_overwrite_resets_age (b : Brain T)
    (h : (hm_keys b.memory).Nodup) (k : String) (v1 v2 : T)
    (t1 t2 now : Timestamp) (_h1 : t1 + b.retention < now)
    (h2 : now ≤ t2 + b.retention) :
    ((b.memoize k v1 t1).memoize k v2 t2).retrieve k = some v2
    ∧ hm_get ((b.memoize k v1 t1).memoize k v2 t2).memory k = some ⟨v2, t2⟩
    ∧ (((b.memoize k v1 t1).memoize k v2 t2).forget now).retrieve k
        = some v2 := by
  have hnd : (hm_keys ((b.memoize k v1 t1).memoize k v2 t2).memory).Nodup :=
    hm_keys_insert_nodup _ (hm_keys_insert_nodup b.memory h k ⟨v1, t1⟩)
      k ⟨v2, t2⟩
  have hget : hm_get ((b.memoize k v1 t1).memoize k v2 t2).memory k
      = some ⟨v2, t2⟩ := hm_get_insert_self _ k ⟨v2, t2⟩
  refine ⟨retrieve_memoize_self _ k v2 t2, hget, ?_⟩
  rw [Brain.retrieve, forget_hm_get _ now hnd k, hget]
  show ((if (t2 + b.retention < now) then none else some (⟨v2, t2⟩ : Engram T)).map
    fun e => e.value) = some v2
  rw [if_neg (not_lt.mpr h2)]
  rfl

/-- Witness for C5 with retention 3: writing at times 0 then 4 and
sweeping at time 5 — after the first write's deadline 3, at or before the
second write's deadline 7 — still yields the second value. -/
theorem memoize_overwrite_resets_age_witness :
    (((Brain.new 3 : Brain Nat).memoize "a" 1 0).memoize "a" 2 4).retrieve "a"
        = some 2
    ∧ hm_get (((Brain.new 3 : Brain Nat).memoize "a" 1 0).memoize "a" 2 4).memory "a"
        = some ⟨2, 4⟩
    ∧ ((((Brain.new 3 : Brain Nat).memoize "a" 1 0).memoize "a" 2 4).forget 5).retrieve "a"
        = some 2 :=
  memoize_overwrite_resets_age (Brain.new 3 : Brain Nat) (by decide)
    "a" 1 2 0 4 5 (by decide) (by decide)

/-- C6: retrieve returns the stored value exactly when the key is bound
and absent exactly when it is not, independently of every timestamp and of
the retention (no read-time expiry filter); being a pure read, it leaves
the store untouched. -/
theorem retrieve_reads_regardless_of_expiry (b : Brain T) (k : String) :
    (∀ e, hm_get b.memory k = some e → b.retrieve k = some e.value)
    ∧ (b.retrieve k = none ↔ hm_get b.memory k = none)
    ∧ ∀ (f : Timestamp → Timestamp) (R2 : Duration),
        (Brain.mk
          (b.memory.map fun p => (p.1, Engram.mk p.2.value (f p.2.inserted_at)))
          R2).retrieve k = b.retrieve k := by
  refine ⟨fun e he => ?_, ?_, fun f R2 => ?_⟩
  · rw [Brain.retrieve, he]
    rfl
  · rw [Brain.retrieve]
    cases hm_get b.memory k <;> simp
  · show (hm_get (b.memory.map fun p =>
        (p.1, Engram.mk p.2.value (f p.2.inserted_at))) k).map (fun e => e.value)
      = b.retrieve k
    rw [hm_get_map_timestamps f b.memory k, Brain.retrieve]
    cases hm_get b.memory k <;> rfl

/-- Witness for C6 on the concrete store: key a is bound to 1 so retrieve
returns it, and scaling every timestamp leaves the read unchanged. -/
theorem retrieve_reads_regardless_of_expiry_witness :
    exBrain.retrieve "a" = some 1
    ∧ (Brain.mk
        (exBrain.memory.map fun p =>
          (p.1, Engram.mk p.2.value (100 * p.2.inserted_at)))
        7).retrieve "a" = exBrain.retrieve "a" := by
  have h := retrieve_reads_regardless_of_expiry exBrain "a"
  exact ⟨h.1 ⟨1, 0⟩ (by decide), h.2.2 (fun t => 100 * t) 7⟩

/-- C7: a sweep never removes an entry that is not strictly expired at the
sweep's single time, and keeps the surviving entries' values and
timestamps unchanged; concretely, with retention 3, key a written at t and
key b at t + 2, a sweep at t + 5 removes a and keeps b, for every t. -/
theorem forget_frame_preserves_unexpired (b : Brain T)
    (h : (hm_keys b.memory).Nodup) (now : Timestamp) :
    (∀ k e, hm_get b.memory k = some e →
        ¬ e.inserted_at + b.retention < now →
        hm_get (b.forget now).memory k = some e)
    ∧ ∀ (t : Timestamp) (va vb : T),
        ((((Brain.new 3).memoize "a" va t).memoize "b" vb (t + 2)).forget
            (t + 5)).retrieve "a" = none
        ∧ ((((Brain.new 3).memoize "a" va t).memoize "b" vb (t + 2)).forget
            (t + 5)).retrieve "b" = some vb := by
  refine ⟨fun k e he hne => ?_, fun t va vb => ?_⟩
  · rw [forget_hm_get b now h k, he]
    show (if e.inserted_at + b.retention < now then none
          else some (e : Engram T)) = some e
    rw [if_neg hne]
  · set bb : Brain T := ((Brain.new 3).memoize "a" va t).memoize "b" vb (t + 2)
      with hbb
    have h0 : (hm_keys ((Brain.new 3 : Brain T).memory)).Nodup := by
      simp [Brain.new, hm_keys]
    have hnd : (hm_keys bb.memory).Nodup := by
      rw [hbb]
      exact hm_keys_insert_nodup _
        (hm_keys_insert_nodup _ h0 "a" ⟨va, t⟩) "b" ⟨vb, t + 2⟩
    have hga : hm_get bb.memory "a" = some ⟨va, t⟩ := rfl
    have hgb : hm_get bb.memory "b" = some ⟨vb, t + 2⟩ := rfl
    have hra : bb.retention = 3 := rfl
    constructor
    · rw [Brain.retrieve, forget_hm_get bb (t + 5) hnd "a", hga]
      show ((if (t + bb.retention < t + 5) then none
            else some (⟨va, t⟩ : Engram T)).map fun e => e.value) = none
      rw [hra, if_pos (by linarith : t + (3 : Int) < t + 5)]
      rfl
    · rw [Brain.retrieve, forget_hm_get bb (t + 5) hnd "b", hgb]
      show ((if (t + 2 + bb.retention < t + 5) then none
            else some (⟨vb, t + 2⟩ : Engram T)).map fun e => e.value) = some vb
      rw [hra, if_neg (by linarith : ¬ t + 2 + (3 : Int) < t + 5)]
      rfl

/-- Witness for C7 at t = 0 over Nat values: the sweep at time 5 drops a
and keeps b with its original engram. -/
theorem forget_frame_preserves_unexpired_witness :
    hm_get (exBrain.forget 5).memory "b" = some ⟨2, 2⟩
    ∧ ((((Brain.new 3 : Brain Nat).memoize "a" 1 0).memoize "b" 2
          (0 + 2)).forget (0 + 5)).retrieve "a" = none := by
  have h := forget_frame_preserves_unexpired exBrain (by decide) 5
  exact ⟨h.1 "b" ⟨2, 2⟩ (by decide) (by decide), (h.2 0 1 2).1⟩

/-- C8: retrieve_or_default returns the value type's default exactly on an
unbound key and the stored value on a bound one — absence is an ordinary
result, not an error. -/
theorem retrieve_or_default_total [Inhabited T] (b : Brain T) (k : String) :
    (hm_get b.memory k = none → b.retrieve_or_default k = default)
    ∧ ∀ e, hm_get b.memory k = some e → b.retrieve_or_default k = e.value := by
  constructor
  · intro hnone
    rw [Brain.retrieve_or_default, Brain.retrieve, hnone]
    rfl
  · intro e he
    rw [Brain.retrieve_or_default, Brain.retrieve, he]
    rfl

/-- Witness for C8 on the concrete store: the unset key z falls back to
the Nat default and the set key a yields its stored value. -/
theorem retrieve_or_default_total_witness :
    exBrain.retrieve_or_default "z" = default
    ∧ exBrain.retrieve_or_default "a" = 1 :=
  ⟨(retrieve_or_default_total exBrain "z").1 (by decide),
   (retrieve_or_default_total exBrain "a").2 ⟨1, 0⟩ (by decide)⟩

/-- C9: with zero or negative retention every entry is immediately
eligible for the sweep: a forget at any time after the entry's write
removes it. -/
theorem nonpositive_retention_sweeps_all (b : Brain T)
    (h : (hm_keys b.memory).Nodup) (hR : b.retention ≤ 0)
    (k : String) (v : T) (t now : Timestamp) (ht : t < now) :
    ((b.memoize k v t).forget now).retrieve k = none := by
  have hnd : (hm_keys (b.memoize k v t).memory).Nodup :=
    hm_keys_insert_nodup b.memory h k ⟨v, t⟩
  have hget : hm_get (b.memoize k v t).memory k = some ⟨v, t⟩ :=
    hm_get_insert_self b.memory k ⟨v, t⟩
  rw [Brain.retrieve, forget_hm_get _ now hnd k, hget]
  show ((if (t + b.retention < now) then none
        else some (⟨v, t⟩ : Engram T)).map fun e => e.value) = none
  rw [if_pos (by linarith : t + b.retention < now)]
  rfl

/-- Witness for C9: retention 0, write at time 0, sweep at time 1 — the
entry is gone. -/
theorem nonpositive_retention_sweeps_all_witness :
    (((Brain.new 0 : Brain Nat).memoize "a" 1 0).forget 1).retrieve "a"
      = none :=
  nonpositive_retention_sweeps_all (Brain.new 0 : Brain Nat) (by decide)
    (by decide) "a" 1 0 1 (by decide)

/-- C10: a newly constructed store is empty: retrieve of any key returns
`none`, and retrieve_or_default returns the default value. -/
theorem new_store_empty [Inhabited T] (R : Duration) (k : String) :
    (Brain.new R : Brain T).retrieve k = none ∧
    (Brain.new R : Brain T).retrieve_or_default k = default := by
  constructor <;> rfl

end RustMemory
